import Mathlib

/-!
Shallow embedding of the `reflection` package of `zchee/go-darkness`
(`src/reflection/type.go`): the encoded `Name` record decoder, its
constructor `NewName`, and the pointer helper `Add`.

Modelling conventions:
* memory owned by the host runtime is a map from addresses to byte values
  (`readByte` truncates to a byte, as Go memory holds bytes);
* a Go pointer is `Option Nat`: `none` is the nil pointer, `some a` the
  address `a`; an operation that dereferences a nil-derived pointer
  (undefined behaviour in the source) denotes `none`;
* `uintptr` addition wraps at `2 ^ 64`, written with an explicit `% 2 ^ 64`;
* a Go string is its byte sequence, `List Nat` with entries below 256;
  the zero-copy string views produced by the decoder are denoted by
  `readBytes`, the list of bytes the view aliases;
* the offset resolver of the runtime (`ResolveTypeOff`, linked from the runtime
  and external to this component) is a parameter
  `resolve : Nat → Int → Option Nat` taking the base pointer and the
  signed 32-bit offset and returning the resolved (possibly nil) pointer.
-/

namespace GoDark

/-- Byte-addressable memory: each address holds a byte value. -/
def Mem : Type := Nat → Nat

/-- Read the byte stored at address `a`. -/
def readByte (m : Mem) (a : Nat) : Nat := m a % 256

/-- Read `l` consecutive bytes starting at address `s`: the denotation of a
zero-copy string view with data pointer `s` and length `l`. -/
def readBytes (m : Mem) : Nat → Nat → List Nat
  | _, 0 => []
  | s, l + 1 => readByte m s :: readBytes m (s + 1) l

/-- `Add(p, x, whySafe)` from the source: returns `p + x` in 64-bit pointer
arithmetic; the `whySafe` string is ignored. No bounds are validated. -/
def Add (p : Nat) (x : Nat) (whySafe : String) : Nat := (p + x) % 2 ^ 64

/-- An encoded `Name` record handle: address of its first byte, or `none`
for the nil pointer. -/
structure Name where
  bytes : Option Nat

/-- `n.Data(off, whySafe)` at address level: pointer to the byte at offset
`off` from the record start, computed through `Add`. -/
def Name.DataA (a : Nat) (off : Nat) (whySafe : String) : Nat :=
  Add a off whySafe

/-- `n.IsExported()`: bit `1<<0` of the flag byte. Dereferences the record
pointer with no nil guard. -/
def Name.IsExported (m : Mem) (n : Name) : Option Bool :=
  n.bytes.map (fun a => readByte m a &&& (1 <<< 0) != 0)

/-- Address-level `NameLen()`: `uint16(data[1])<<8 | uint16(data[2])`. -/
def nameLenA (m : Mem) (a : Nat) : Nat :=
  readByte m (Name.DataA a 1 "name len field") <<< 8 |||
    readByte m (Name.DataA a 2 "name len field")

/-- `n.NameLen()`: no nil guard. -/
def Name.NameLen (m : Mem) (n : Name) : Option Nat :=
  n.bytes.map (fun a => nameLenA m a)

/-- Address-level `TagLen()`: 0 when flag bit `1<<1` is clear, else the
2-byte count right after the identifier bytes. -/
def tagLenA (m : Mem) (a : Nat) : Nat :=
  if readByte m (Name.DataA a 0 "name flag field") &&& (1 <<< 1) = 0 then 0
  else
    readByte m (Name.DataA a (3 + nameLenA m a) "name taglen field") <<< 8 |||
      readByte m (Name.DataA a (3 + nameLenA m a + 1) "name taglen field")

/-- `n.TagLen()`: no nil guard. -/
def Name.TagLen (m : Mem) (n : Name) : Option Nat :=
  n.bytes.map (fun a => tagLenA m a)

/-- `n.Name()` (the method is called `Name` in the source; renamed here as
its name would shadow the type): explicit nil guard returning `""`;
otherwise a zero-copy view over bytes `[a+3, a+3+l)` where
`l = int(b[1])<<8 | int(b[2])`. -/
def Name.NameStr (m : Mem) (n : Name) : Option (List Nat) :=
  match n.bytes with
  | none => some []
  | some a =>
      some (readBytes m (a + 3) (readByte m (a + 1) <<< 8 ||| readByte m (a + 2)))

/-- `n.Tag()`: calls `TagLen` (so no nil guard); `""` when the tag length is
0, else a zero-copy view over the tag bytes. -/
def Name.Tag (m : Mem) (n : Name) : Option (List Nat) :=
  match n.bytes with
  | none => none
  | some a =>
      if tagLenA m a = 0 then some []
      else
        some (readBytes m
          (Name.DataA a (3 + nameLenA m a + 2) "non-empty string") (tagLenA m a))

/-- The 4 bytes at `base .. base+3` copied into an `int32`
(little-endian host, signed with wraparound at `2 ^ 32`). -/
def readInt32 (m : Mem) (base : Nat) : Int :=
  let v := readByte m base + 256 * readByte m (base + 1) +
    65536 * readByte m (base + 2) + 16777216 * readByte m (base + 3)
  if v < 2 ^ 31 then (v : Int) else (v : Int) - 2 ^ 32

/-- `n.PkgPath()`: `""` when the pointer is nil or flag bit `1<<2` is clear;
otherwise reads the 4-byte name offset stored past the identifier and the
optional tag, resolves it through the runtime resolver, and decodes the
identifier of the resulting record with `Name()`. -/
def Name.PkgPath (resolve : Nat → Int → Option Nat) (m : Mem) (n : Name) :
    Option (List Nat) :=
  match n.bytes with
  | none => some []
  | some a =>
      if readByte m (Name.DataA a 0 "name flag field") &&& (1 <<< 2) = 0 then
        some []
      else
        Name.NameStr m (Name.mk (resolve a (readInt32 m (Name.DataA a
          (3 + nameLenA m a + (if 0 < tagLenA m a then 2 + tagLenA m a else 0))
          "name offset field"))))

/-- The flag byte built by `NewName`: `bits |= 1<<0` when exported,
`bits |= 1<<1` when the tag is non-empty. -/
def nameBits (exported : Bool) (tagLen : Nat) : Nat :=
  (if exported then 0 ||| 1 <<< 0 else 0) |||
    (if 0 < tagLen then 1 <<< 1 else 0)

/-- `NewName(n, tag, exported)`: `none` models the fatal construction error
(the source panics) when either length exceeds `1<<16 - 1`; otherwise the
freshly allocated buffer `b`: flag byte, 2-byte big-endian identifier
length, identifier bytes, and, for a non-empty tag, 2-byte big-endian tag
length followed by the tag bytes. The returned record is anchored at the
first byte of the buffer. -/
def NewName (n : List Nat) (tag : List Nat) (exported : Bool) :
    Option (List Nat) :=
  if (1 <<< 16) - 1 < n.length then none
  else if (1 <<< 16) - 1 < tag.length then none
  else
    some ((nameBits exported tag.length ::
        (n.length >>> 8) % 256 :: n.length % 256 :: n) ++
      (if 0 < tag.length then
        (tag.length >>> 8) % 256 :: tag.length % 256 :: tag
      else []))

/-- A memory holding exactly the buffer `b` at address 0 (unowned addresses
read as 0). -/
def memOf (b : List Nat) : Mem := fun i => b.getD i 0

/-- Memory `m` with a freshly allocated buffer `b` written at address `k`. -/
def writeBuf (m : Mem) (k : Nat) (b : List Nat) : Mem :=
  fun i => if k ≤ i ∧ i < k + b.length then b.getD (i - k) 0 else m i

/-! ### Helper lemmas -/

theorem NameStr_some (m : Mem) (a : Nat) :
    Name.NameStr m (Name.mk (some a)) =
      some (readBytes m (a + 3)
        (readByte m (a + 1) <<< 8 ||| readByte m (a + 2))) := rfl

theorem Tag_some (m : Mem) (a : Nat) :
    Name.Tag m (Name.mk (some a)) =
      if tagLenA m a = 0 then some []
      else some (readBytes m
        (Name.DataA a (3 + nameLenA m a + 2) "non-empty string")
        (tagLenA m a)) := rfl

theorem IsExported_some (m : Mem) (a : Nat) :
    Name.IsExported m (Name.mk (some a)) =
      some (readByte m a &&& (1 <<< 0) != 0) := rfl

theorem NameLen_some (m : Mem) (a : Nat) :
    Name.NameLen m (Name.mk (some a)) = some (nameLenA m a) := rfl

theorem TagLen_some (m : Mem) (a : Nat) :
    Name.TagLen m (Name.mk (some a)) = some (tagLenA m a) := rfl

theorem readByte_lt (m : Mem) (a : Nat) : readByte m a < 256 :=
  Nat.mod_lt _ (by norm_num)

theorem shiftLeft_lor_eq (hi lo : Nat) (h : lo < 256) :
    hi <<< 8 ||| lo = hi * 256 + lo := by
  have h8 : lo < 2 ^ 8 := by simpa using h
  rw [Nat.shiftLeft_eq, Nat.mul_comm, ← Nat.mul_add_lt_is_or h8 hi]

theorem readByte_memOf (b : List Nat) (i : Nat) (h : b.getD i 0 < 256) :
    readByte (memOf b) i = b.getD i 0 :=
  Nat.mod_eq_of_lt h

theorem readBytes_congr (m m2 : Mem) (s l : Nat)
    (h : ∀ i, s ≤ i → i < s + l → m i = m2 i) :
    readBytes m s l = readBytes m2 s l := by
  induction l generalizing s with
  | zero => rfl
  | succ l ih =>
    simp only [readBytes, readByte]
    rw [h s le_rfl (by omega)]
    rw [ih (s + 1) (fun i h1 h2 => h i (by omega) (by omega))]

theorem readBytes_memOf (mid : List Nat) :
    ∀ (pre post : List Nat), (∀ c ∈ mid, c < 256) →
      readBytes (memOf (pre ++ mid ++ post)) pre.length mid.length = mid := by
  induction mid with
  | nil => intro pre post _; rfl
  | cons c cs ih =>
    intro pre post h
    simp only [List.length_cons, readBytes, readByte, memOf]
    have h1 : (pre ++ c :: cs ++ post).getD pre.length 0 = c := by
      rw [List.append_assoc]
      have h0 := List.getD_append_right pre (c :: cs ++ post) 0 pre.length le_rfl
      rw [h0, Nat.sub_self]
      rfl
    have h3 : c % 256 = c := Nat.mod_eq_of_lt (h c (by simp))
    rw [h1, h3]
    have h2 : pre ++ c :: cs ++ post = (pre ++ [c]) ++ cs ++ post := by simp
    rw [h2]
    have h4 : pre.length + 1 = (pre ++ [c]).length := by simp
    have h5 := ih (pre ++ [c]) post (fun x hx => h x (by simp [hx]))
    simp only [readBytes, readByte, memOf] at h5
    rw [h4, h5]

theorem DataA_eq (a off : Nat) (s : String) (h : a + off < 2 ^ 64) :
    Name.DataA a off s = a + off :=
  Nat.mod_eq_of_lt h

theorem lt64_mono {a i j : Nat} (h : a + j < 2 ^ 64) (hij : i ≤ j) :
    a + i < 2 ^ 64 :=
  Nat.lt_of_le_of_lt (Nat.add_le_add_left hij a) h

theorem nameLenA_eq (m : Mem) (a : Nat) (h : a + 2 < 2 ^ 64) :
    nameLenA m a = readByte m (a + 1) * 256 + readByte m (a + 2) := by
  unfold nameLenA
  rw [DataA_eq _ _ _ (lt64_mono h (by omega)), DataA_eq _ _ _ h,
    shiftLeft_lor_eq _ _ (readByte_lt m _)]

theorem tagLenA_eq (m : Mem) (a : Nat) (h : a + (4 + nameLenA m a) < 2 ^ 64) :
    tagLenA m a =
      if readByte m a &&& 2 = 0 then 0
      else readByte m (a + (3 + nameLenA m a)) * 256 +
        readByte m (a + (3 + nameLenA m a + 1)) := by
  unfold tagLenA
  have e0 : Name.DataA a 0 "name flag field" = a := by
    rw [DataA_eq _ _ _ (lt64_mono h (by omega)), Nat.add_zero]
  have e1 : (1 <<< 1 : Nat) = 2 := rfl
  rw [e0, e1, DataA_eq _ _ _ (lt64_mono h (by omega)),
    DataA_eq _ _ _ (lt64_mono h (by omega)),
    shiftLeft_lor_eq _ _ (readByte_lt m _)]

/-! ### Claim theorems -/

/-- C6: for every Name record, `NameLen()` returns the 2-byte big-endian
count read from the two bytes right after the flag byte: high byte at
offset 1, low byte at offset 2. -/
theorem NameLen_big_endian (m : Mem) (a : Nat) (h : a + 2 < 2 ^ 64) :
    Name.NameLen m (Name.mk (some a)) =
      some (readByte m (a + 1) * 256 + readByte m (a + 2)) := by
  simp [Name.NameLen, nameLenA_eq m a h]

theorem NameLen_big_endian_witness :
    Name.NameLen (memOf [0, 1, 2]) (Name.mk (some 0)) = some 258 := by
  rw [NameLen_big_endian _ _ (by decide)]
  decide

/-- C5: for every Name record, `TagLen()` returns 0 when the has-tag flag
(bit `1<<1`) is unset, else the 2-byte big-endian count stored right after
the identifier bytes, at offsets `3 + NameLen()` and `3 + NameLen() + 1`. -/
theorem TagLen_spec (m : Mem) (a : Nat) (h64 : a + (4 + nameLenA m a) < 2 ^ 64) :
    (readByte m a &&& 2 = 0 → Name.TagLen m (Name.mk (some a)) = some 0) ∧
    (readByte m a &&& 2 ≠ 0 →
      Name.TagLen m (Name.mk (some a)) =
        some (readByte m (a + (3 + nameLenA m a)) * 256 +
          readByte m (a + (3 + nameLenA m a + 1)))) := by
  constructor <;> intro hf <;> simp [Name.TagLen, tagLenA_eq m a h64, hf]

theorem TagLen_spec_witness :
    Name.TagLen (memOf [2, 0, 1, 99, 0, 7]) (Name.mk (some 0)) = some 7 := by
  have h := (TagLen_spec (memOf [2, 0, 1, 99, 0, 7]) 0 (by decide)).2 (by decide)
  rw [h]
  decide

theorem pkgPath_flag_clear (resolve : Nat → Int → Option Nat) (m : Mem)
    (a : Nat) (ha : a < 2 ^ 64) (h : readByte m a &&& 4 = 0) :
    Name.PkgPath resolve m (Name.mk (some a)) = some [] := by
  simp only [Name.PkgPath]
  have e0 : Name.DataA a 0 "name flag field" = a := by
    rw [DataA_eq _ _ _ (by simpa using ha), Nat.add_zero]
  have e1 : (1 <<< 2 : Nat) = 4 := rfl
  rw [e0, e1, if_pos h]

/-- C4: for every Name record whose has-package-path flag (bit `1<<2`) is
unset, `PkgPath()` returns the empty string, whatever the identifier, tag,
exported bit, resolver, and remaining memory are. -/
theorem PkgPath_no_flag (resolve : Nat → Int → Option Nat) (m : Mem) (a : Nat)
    (ha : a < 2 ^ 64) (h : readByte m a &&& 4 = 0) :
    Name.PkgPath resolve m (Name.mk (some a)) = some [] :=
  pkgPath_flag_clear resolve m a ha h

theorem PkgPath_no_flag_witness :
    Name.PkgPath (fun p o => some (p + o.toNat)) (memOf [3, 0, 1, 120])
      (Name.mk (some 0)) = some [] :=
  PkgPath_no_flag _ _ 0 (by decide) (by decide)

/-- C8: `Add(p, x, whySafe)` returns exactly the base address advanced by
`x` bytes in 64-bit pointer arithmetic; the result does not depend on the
string argument; no bounds are validated (`Add` is a total pure function
with no failure case). -/
theorem Add_spec (p x : Nat) (s t : String) :
    Add p x s = Add p x t ∧ Add p x s = (p + x) % 2 ^ 64 ∧
      (p + x < 2 ^ 64 → Add p x s = p + x) :=
  ⟨rfl, rfl, fun h => Nat.mod_eq_of_lt h⟩

theorem Add_spec_witness :
    Add 3 4 "why" = Add 3 4 "unsaid" ∧ Add 3 4 "why" = (3 + 4) % 2 ^ 64 ∧
      Add 3 4 "why" = 3 + 4 := by
  obtain ⟨h1, h2, h3⟩ := Add_spec 3 4 "why" "unsaid"
  exact ⟨h1, h2, h3 (by decide)⟩

/-- C9: on the nil record, `Name()` and `PkgPath()` hit their explicit nil
guards and return the empty string reading no memory (they are constant in
`m` and `resolve`), while `IsExported()`, `NameLen()` and `TagLen()` have no
guard and dereference nil (`none`, the undefined behaviour of the source). -/
theorem nil_guards (m : Mem) (resolve : Nat → Int → Option Nat) :
    Name.NameStr m (Name.mk none) = some [] ∧
    Name.PkgPath resolve m (Name.mk none) = some [] ∧
    Name.IsExported m (Name.mk none) = none ∧
    Name.NameLen m (Name.mk none) = none ∧
    Name.TagLen m (Name.mk none) = none :=
  ⟨rfl, rfl, rfl, rfl, rfl⟩

theorem nameBits_cases (e : Bool) (t : Nat) :
    nameBits e t = (if e then 1 else 0) + (if 0 < t then 2 else 0) := by
  rcases e <;> by_cases h : 0 < t <;> simp [nameBits, h]

theorem nameBits_lt (e : Bool) (t : Nat) : nameBits e t < 256 := by
  rw [nameBits_cases]
  rcases e <;> by_cases h : 0 < t <;> simp [h]

theorem newName_eq (n tag : List Nat) (e : Bool) (hn : n.length ≤ 65535)
    (ht : tag.length ≤ 65535) :
    NewName n tag e = some ((nameBits e tag.length ::
        (n.length >>> 8) % 256 :: n.length % 256 :: n) ++
      (if 0 < tag.length then
        (tag.length >>> 8) % 256 :: tag.length % 256 :: tag
      else [])) := by
  unfold NewName
  have e16 : ((1 <<< 16) - 1 : Nat) = 65535 := rfl
  rw [e16, if_neg (by omega), if_neg (by omega)]

/-- C2: NewName fails with the fatal construction error exactly when the
identifier length or the tag length exceeds 65535; in particular an
identifier of length 65536 fails and one of length 65535 succeeds. -/
theorem NewName_fail_iff :
    (∀ (n tag : List Nat) (e : Bool),
      NewName n tag e = none ↔ 65535 < n.length ∨ 65535 < tag.length) ∧
    NewName (List.replicate 65536 0) [] true = none ∧
    (NewName (List.replicate 65535 0) [] true).isSome = true := by
  have e16 : ((1 <<< 16) - 1 : Nat) = 65535 := rfl
  refine ⟨?_, ?_, ?_⟩
  · intro n tag e
    unfold NewName
    rw [e16]
    split_ifs with h1 h2
    · simp [h1]
    · simp [h2]
    · simp [h1, h2]
  · unfold NewName
    rw [e16, if_pos (by rw [List.length_replicate]; norm_num)]
  · unfold NewName
    rw [e16, if_neg (by rw [List.length_replicate]; omega),
      if_neg (by simp)]
    rfl

/-- C10: every record accepted and built by NewName has the
has-package-path flag (bit `1<<2`) clear in its flag byte, so `PkgPath()`
on the constructed record returns the empty string for every resolver. -/
theorem NewName_never_pkgpath (n tag : List Nat) (e : Bool) (b : List Nat)
    (hb : NewName n tag e = some b) :
    b.getD 0 0 &&& 4 = 0 ∧
    ∀ resolve, Name.PkgPath resolve (memOf b) (Name.mk (some 0)) = some [] := by
  have e16 : ((1 <<< 16) - 1 : Nat) = 65535 := rfl
  have hn : n.length ≤ 65535 := by
    by_contra hc
    unfold NewName at hb
    rw [e16, if_pos (by omega)] at hb
    exact Option.noConfusion hb
  have ht : tag.length ≤ 65535 := by
    by_contra hc
    unfold NewName at hb
    rw [e16, if_neg (by omega), if_pos (by omega)] at hb
    exact Option.noConfusion hb
  rw [newName_eq n tag e hn ht] at hb
  injection hb with hb
  have hflag : b.getD 0 0 = nameBits e tag.length := by
    rw [← hb]
    simp [List.cons_append]
  have h4 : nameBits e tag.length &&& 4 = 0 := by
    rw [nameBits_cases]
    rcases e <;> by_cases h : 0 < tag.length <;> simp [h] <;> decide
  refine ⟨by rw [hflag]; exact h4, fun resolve => ?_⟩
  apply pkgPath_flag_clear resolve (memOf b) 0 (by norm_num)
  rw [readByte_memOf b 0 (by rw [hflag]; exact nameBits_lt e tag.length), hflag]
  exact h4

theorem NewName_never_pkgpath_witness :
    ([] : List Nat).getD 0 0 &&& 4 = 0 ∧
      ∀ resolve, Name.PkgPath resolve
        (memOf [1, 0, 1, 120]) (Name.mk (some 0)) = some [] := by
  have h := NewName_never_pkgpath [120] [] true [1, 0, 1, 120] (by decide)
  exact ⟨by decide, h.2⟩

theorem pow64 : (2 : Nat) ^ 64 = 18446744073709551616 := by norm_num

theorem roundtrip_len (L : Nat) (hL : L ≤ 65535) :
    ((L >>> 8) % 256) <<< 8 ||| L % 256 = L := by
  rw [shiftLeft_lor_eq _ _ (Nat.mod_lt _ (by norm_num))]
  have h1 : (L >>> 8) % 256 = L / 256 := by
    rw [Nat.shiftRight_eq_div_pow]
    norm_num
    omega
  rw [h1]
  omega

/-- C1: for every identifier and tag of length at most 65535 and either
exported flag, the record constructed by `NewName` decodes back to exactly
the inputs: `Name()` yields the identifier, `Tag()` the tag, and
`IsExported()` the exported flag. -/
theorem NewName_roundtrip (n tag : List Nat) (e : Bool)
    (hn : n.length ≤ 65535) (ht : tag.length ≤ 65535)
    (hnb : ∀ c ∈ n, c < 256) (htb : ∀ c ∈ tag, c < 256) :
    ∃ b, NewName n tag e = some b ∧
      Name.NameStr (memOf b) (Name.mk (some 0)) = some n ∧
      Name.Tag (memOf b) (Name.mk (some 0)) = some tag ∧
      Name.IsExported (memOf b) (Name.mk (some 0)) = some e := by
  obtain ⟨b, hbdef⟩ : ∃ b : List Nat,
      b = (nameBits e tag.length ::
          (n.length >>> 8) % 256 :: n.length % 256 :: n) ++
        (if 0 < tag.length then
          (tag.length >>> 8) % 256 :: tag.length % 256 :: tag
        else []) := ⟨_, rfl⟩
  have hB3 : b = ([nameBits e tag.length,
      (n.length >>> 8) % 256, n.length % 256] ++ n) ++
        (if 0 < tag.length then
          (tag.length >>> 8) % 256 :: tag.length % 256 :: tag
        else []) := by
    rw [hbdef]
    rfl
  have hg0 : b.getD 0 0 = nameBits e tag.length := by
    rw [hbdef]
    rfl
  have hg1 : b.getD 1 0 = (n.length >>> 8) % 256 := by
    rw [hbdef]
    rfl
  have hg2 : b.getD 2 0 = n.length % 256 := by
    rw [hbdef]
    rfl
  have hr0 : readByte (memOf b) 0 = nameBits e tag.length := by
    rw [readByte_memOf b 0 (by rw [hg0]; exact nameBits_lt e tag.length), hg0]
  have hr1 : readByte (memOf b) 1 = (n.length >>> 8) % 256 := by
    rw [readByte_memOf b 1 (by rw [hg1]; exact Nat.mod_lt _ (by norm_num)), hg1]
  have hr2 : readByte (memOf b) 2 = n.length % 256 := by
    rw [readByte_memOf b 2 (by rw [hg2]; exact Nat.mod_lt _ (by norm_num)), hg2]
  have hlen : readByte (memOf b) 1 <<< 8 ||| readByte (memOf b) 2 = n.length := by
    rw [hr1, hr2]
    exact roundtrip_len n.length hn
  have hnl : nameLenA (memOf b) 0 = n.length := by
    unfold nameLenA
    have d1 : Name.DataA 0 1 "name len field" = 1 := by decide
    have d2 : Name.DataA 0 2 "name len field" = 2 := by decide
    rw [d1, d2, hlen]
  have hrn : readBytes (memOf b) 3 n.length = n := by
    rw [hB3]
    have h := readBytes_memOf n
      [nameBits e tag.length, (n.length >>> 8) % 256, n.length % 256]
      (if 0 < tag.length then
        (tag.length >>> 8) % 256 :: tag.length % 256 :: tag
      else []) hnb
    simpa using h
  refine ⟨b, by rw [newName_eq n tag e hn ht, hbdef], ?_, ?_, ?_⟩
  · rw [NameStr_some]
    simp only [Nat.zero_add]
    rw [hlen, hrn]
  · rcases Nat.eq_zero_or_pos tag.length with hT | hT
    · obtain rfl : tag = [] := List.length_eq_zero.mp hT
      simp only [List.length_nil] at hr0
      have hflag2 : nameBits e 0 &&& (1 <<< 1) = 0 := by
        rcases e <;> decide
      have htl0 : tagLenA (memOf b) 0 = 0 := by
        unfold tagLenA
        have d0 : Name.DataA 0 0 "name flag field" = 0 := by decide
        rw [d0, hr0, if_pos hflag2]
      rw [Tag_some, htl0]
      simp
    · have hflag2 : nameBits e tag.length &&& (1 <<< 1) ≠ 0 := by
        rw [nameBits_cases]
        rcases e <;> simp [hT]
      have hplen : ([nameBits e tag.length, (n.length >>> 8) % 256,
          n.length % 256] ++ n).length = 3 + n.length := by
        simp only [List.length_append, List.length_cons, List.length_nil]
      have htail : readBytes (memOf b) (3 + n.length) (tag.length + 1 + 1) =
          (tag.length >>> 8) % 256 :: tag.length % 256 :: tag := by
        have h := readBytes_memOf
          ((tag.length >>> 8) % 256 :: tag.length % 256 :: tag)
          ([nameBits e tag.length, (n.length >>> 8) % 256, n.length % 256] ++ n)
          [] (by
            intro c hc
            simp only [List.mem_cons] at hc
            rcases hc with rfl | hc
            · exact Nat.mod_lt _ (by norm_num)
            rcases hc with rfl | hc
            · exact Nat.mod_lt _ (by norm_num)
            · exact htb c hc)
        rw [List.append_nil, hplen] at h
        rw [hB3, if_pos hT]
        exact h
      simp only [readBytes] at htail
      injection htail with hq1 htail
      injection htail with hq2 htail
      have htl : tagLenA (memOf b) 0 = tag.length := by
        unfold tagLenA
        have d0 : Name.DataA 0 0 "name flag field" = 0 := by decide
        rw [d0, hr0, if_neg hflag2, hnl]
        have d1 : Name.DataA 0 (3 + n.length) "name taglen field" =
            3 + n.length := by
          rw [DataA_eq _ _ _ (by rw [pow64]; omega), Nat.zero_add]
        have d2 : Name.DataA 0 (3 + n.length + 1) "name taglen field" =
            3 + n.length + 1 := by
          rw [DataA_eq _ _ _ (by rw [pow64]; omega), Nat.zero_add]
        rw [d1, d2, hq1, hq2]
        exact roundtrip_len tag.length ht
      rw [Tag_some, htl, hnl, if_neg (by omega)]
      have d3 : Name.DataA 0 (3 + n.length + 2) "non-empty string" =
          3 + n.length + 2 := by
        rw [DataA_eq _ _ _ (by rw [pow64]; omega), Nat.zero_add]
      rw [d3]
      have e3 : 3 + n.length + 1 + 1 = 3 + n.length + 2 := by omega
      rw [e3] at htail
      rw [htail]
  · have hbit : (nameBits e tag.length &&& (1 <<< 0) != 0) = e := by
      rw [nameBits_cases]
      rcases e <;> by_cases h : 0 < tag.length <;> simp [h]
    rw [IsExported_some, hr0, hbit]

theorem NewName_roundtrip_witness :
    ∃ b, NewName [70, 105] [106, 58, 34, 102, 34] true = some b ∧
      Name.NameStr (memOf b) (Name.mk (some 0)) = some [70, 105] ∧
      Name.Tag (memOf b) (Name.mk (some 0)) =
        some [106, 58, 34, 102, 34] ∧
      Name.IsExported (memOf b) (Name.mk (some 0)) = some true :=
  NewName_roundtrip [70, 105] [106, 58, 34, 102, 34] true
    (by decide) (by decide) (by decide) (by decide)

/-- C3: for every Name record whose has-package-path flag (bit `1<<2` of
the flag byte) is set, `PkgPath()` computes the byte offset past the
identifier and the optional tag, reads the 4-byte offset value stored
there, resolves it through the name-offset resolver of the runtime, and returns
the identifier text (`Name()`) of the record at the resolved address. -/
theorem PkgPath_resolves (resolve : Nat → Int → Option Nat) (m : Mem)
    (a r : Nat) (h64 : a + (9 + nameLenA m a + tagLenA m a) < 2 ^ 64)
    (hflag : readByte m a &&& 4 ≠ 0)
    (hr : resolve a (readInt32 m (a + (3 + nameLenA m a +
      (if 0 < tagLenA m a then 2 + tagLenA m a else 0)))) = some r) :
    Name.PkgPath resolve m (Name.mk (some a)) =
      Name.NameStr m (Name.mk (some r)) := by
  simp only [Name.PkgPath]
  have e0 : Name.DataA a 0 "name flag field" = a := by
    rw [DataA_eq _ _ _ (by rw [pow64] at h64 ⊢; omega), Nat.add_zero]
  have e1 : (1 <<< 2 : Nat) = 4 := rfl
  rw [e0, e1, if_neg hflag,
    DataA_eq _ _ _ (by rw [pow64] at h64 ⊢; split_ifs <;> omega), hr]

theorem PkgPath_resolves_witness :
    Name.PkgPath (fun p o => some (p + o.toNat)) (memOf [4, 0, 0, 0, 0, 0, 0])
      (Name.mk (some 0)) =
    Name.NameStr (memOf [4, 0, 0, 0, 0, 0, 0]) (Name.mk (some 0)) :=
  PkgPath_resolves (fun p o => some (p + o.toNat)) (memOf [4, 0, 0, 0, 0, 0, 0])
    0 0 (by decide) (by decide) (by decide)

/-- C7: every decoding operation is a pure read of the bytes of the record:
when two memories agree below `k` and the footprint of the record lies below
`k`, all decode results coincide — the operations read, and never write,
the underlying buffer — and writing the fresh buffer built by `NewName`
(the only allocating operation of the component) at address `k` leaves
every byte below `k` unchanged. `PkgPath` agreement additionally assumes
every record the resolver can return lies below `k`; the descriptor and
field accessors of the source are plain struct-field reads with no memory
operation, and the resolver itself is external to the component. -/
theorem decode_readonly (m m2 : Mem) (a k : Nat)
    (hagree : ∀ i, i < k → m i = m2 i)
    (hfoot : a + 9 + nameLenA m a + tagLenA m a ≤ k)
    (hk : k ≤ 2 ^ 64) :
    Name.IsExported m (Name.mk (some a)) =
      Name.IsExported m2 (Name.mk (some a)) ∧
    Name.NameLen m (Name.mk (some a)) = Name.NameLen m2 (Name.mk (some a)) ∧
    Name.TagLen m (Name.mk (some a)) = Name.TagLen m2 (Name.mk (some a)) ∧
    Name.NameStr m (Name.mk (some a)) = Name.NameStr m2 (Name.mk (some a)) ∧
    Name.Tag m (Name.mk (some a)) = Name.Tag m2 (Name.mk (some a)) ∧
    (∀ resolve : Nat → Int → Option Nat,
      (∀ r o, resolve a o = some r →
        r + 3 + (readByte m (r + 1) <<< 8 ||| readByte m (r + 2)) ≤ k) →
      Name.PkgPath resolve m (Name.mk (some a)) =
        Name.PkgPath resolve m2 (Name.mk (some a))) ∧
    (∀ ident tag e b, NewName ident tag e = some b →
      ∀ i, i < k → writeBuf m k b i = m i) := by
  have hk2 : k ≤ 18446744073709551616 := by
    rw [pow64] at hk
    exact hk
  have hrb : ∀ x, x < k → readByte m x = readByte m2 x := by
    intro x hx
    unfold readByte
    rw [hagree x hx]
  have hnl2 : nameLenA m a = nameLenA m2 a := by
    unfold nameLenA
    rw [DataA_eq _ _ _ (by rw [pow64]; omega),
      DataA_eq _ _ _ (by rw [pow64]; omega),
      hrb (a + 1) (by omega), hrb (a + 2) (by omega)]
  have htl2 : tagLenA m a = tagLenA m2 a := by
    unfold tagLenA
    rw [DataA_eq _ _ _ (by rw [pow64]; omega), Nat.add_zero,
      hrb a (by omega), ← hnl2,
      DataA_eq _ _ _ (by rw [pow64]; omega),
      DataA_eq _ _ _ (by rw [pow64]; omega),
      hrb (a + (3 + nameLenA m a)) (by omega),
      hrb (a + (3 + nameLenA m a + 1)) (by omega)]
  have hlen2 : readByte m (a + 1) <<< 8 ||| readByte m (a + 2) =
      nameLenA m a := by
    unfold nameLenA
    rw [DataA_eq _ _ _ (by rw [pow64]; omega),
      DataA_eq _ _ _ (by rw [pow64]; omega)]
  refine ⟨?_, ?_, ?_, ?_, ?_, ?_, ?_⟩
  · rw [IsExported_some, IsExported_some, hrb a (by omega)]
  · rw [NameLen_some, NameLen_some, hnl2]
  · rw [TagLen_some, TagLen_some, htl2]
  · rw [NameStr_some, NameStr_some, ← hrb (a + 1) (by omega),
      ← hrb (a + 2) (by omega), hlen2]
    have hc := readBytes_congr m m2 (a + 3) (nameLenA m a)
      (fun i h1 h2 => hagree i (by omega))
    rw [hc]
  · rw [Tag_some, Tag_some, ← htl2, ← hnl2]
    by_cases h0 : tagLenA m a = 0
    · rw [if_pos h0, if_pos h0]
    · rw [if_neg h0, if_neg h0,
        DataA_eq _ _ _ (by rw [pow64]; omega)]
      have hc := readBytes_congr m m2 (a + (3 + nameLenA m a + 2))
        (tagLenA m a) (fun i h1 h2 => hagree i (by omega))
      rw [hc]
  · intro resolve hres
    simp only [Name.PkgPath]
    have e0 : Name.DataA a 0 "name flag field" = a := by
      rw [DataA_eq _ _ _ (by rw [pow64]; omega), Nat.add_zero]
    have e1 : (1 <<< 2 : Nat) = 4 := rfl
    rw [e0, e1, hrb a (by omega)]
    by_cases hf : readByte m2 a &&& 4 = 0
    · rw [if_pos hf, if_pos hf]
    · rw [if_neg hf, if_neg hf, ← hnl2, ← htl2]
      obtain ⟨off, hoffdef⟩ : ∃ off, off = 3 + nameLenA m a +
          (if 0 < tagLenA m a then 2 + tagLenA m a else 0) := ⟨_, rfl⟩
      rw [← hoffdef]
      have hoffb : off ≤ 5 + nameLenA m a + tagLenA m a := by
        rw [hoffdef]
        split_ifs <;> omega
      rw [DataA_eq _ _ _ (by rw [pow64]; omega)]
      have hint : readInt32 m (a + off) = readInt32 m2 (a + off) := by
        unfold readInt32 readByte
        rw [hagree (a + off) (by omega), hagree (a + off + 1) (by omega),
          hagree (a + off + 2) (by omega), hagree (a + off + 3) (by omega)]
      rw [hint]
      cases hre : resolve a (readInt32 m2 (a + off)) with
      | none => rfl
      | some r =>
        have hb := hres r _ hre
        rw [NameStr_some, NameStr_some, ← hrb (r + 1) (by omega),
          ← hrb (r + 2) (by omega)]
        have hc := readBytes_congr m m2 (r + 3)
          (readByte m (r + 1) <<< 8 ||| readByte m (r + 2))
          (fun i h1 h2 => hagree i (by omega))
        rw [hc]
  · intro ident tag e b _ i hi
    unfold writeBuf
    rw [if_neg (by omega)]

theorem decode_readonly_witness :
    Name.NameStr (memOf [1, 0, 1, 120]) (Name.mk (some 0)) =
      Name.NameStr (writeBuf (memOf [1, 0, 1, 120]) 16 [7])
        (Name.mk (some 0)) :=
  (decode_readonly (memOf [1, 0, 1, 120])
    (writeBuf (memOf [1, 0, 1, 120]) 16 [7]) 0 16
    (by decide) (by decide) (by decide)).2.2.2.1

end GoDark
